import Mathlib

/-
Verification of the backtest simulation and performance-analytics engine
(backtest.py, analyzer.py, optimizer.py).

Modelling conventions.
* Machine floats are modelled by exact rationals.  A pandas missing value
  (NaN produced by `shift(1)` on the first row) is modelled by `Option ℚ`
  with `none` standing for NaN; the skip-NaN behaviour of `cumsum`,
  `cumprod`, `cummax`, `dropna` and of comparisons against NaN is modelled
  explicitly.
* A DataFrame is a record of columns sharing one index.  The three base
  columns (`timestamp`, `close`, `position`) are always present, matching
  the input contract of `Backtester.run_backtest`; the derived columns are
  `Option`-al, `none` meaning "column absent".
* Timestamps are day numbers (ℤ): `(t2 - t1).days` of the source becomes
  plain integer subtraction.
* `np.sqrt` and the square root inside `pandas.Series.std` are irrational;
  the analyzer is parameterised by an abstract `sq : ℚ → ℚ` standing for
  the square-root map.  Every verified statement holds for all `sq`.
-/

namespace Cta

/-- A Python float value as it appears in a metrics record: a finite
number, one of the two infinities, or NaN. -/
inductive PyVal where
  | num (q : ℚ)
  | inf
  | negInf
  | nan
deriving DecidableEq, Repr

/-- Python `round(x, ndigits)`: round half to even at `ndigits` decimal
places (banker's rounding, as `round` does on floats). -/
def round_half_even (x : ℚ) : ℤ :=
  let f := ⌊x⌋
  let r := x - (f : ℚ)
  if r < 1/2 then f
  else if 1/2 < r then f + 1
  else if f % 2 = 0 then f else f + 1

/-- Python `round(x, n)` of the source, on the rational model of a float. -/
def py_round (n : ℕ) (x : ℚ) : ℚ :=
  (round_half_even (x * (10 : ℚ) ^ n) : ℚ) / (10 : ℚ) ^ n

/-- Arithmetic mean, as `Series.mean` / `np.mean` on a nonempty series. -/
def mean (l : List ℚ) : ℚ := l.sum / (l.length : ℚ)

/-- Sample variance with ddof = 1, the square of `pandas.Series.std`.
`Series.std` itself is `sq (sample_var l)`; it is NaN when the series has
fewer than two elements (the ℚ-division by zero below is only ever used
behind explicit length guards). -/
def sample_var (l : List ℚ) : ℚ :=
  ((l.map (fun x => (x - mean l) ^ 2)).sum) / ((l.length : ℚ) - 1)

/-- One bar series as handed to `run_backtest`: the base columns plus the
optional derived columns (in pandas, a column that may be absent). -/
structure DF where
  timestamp : List ℤ
  close : List ℚ
  position : List ℚ
  returns : Option (List ℚ)
  pnl : Option (List (Option ℚ))
  cumulative_pnl : Option (List (Option ℚ))
  equity_curve : Option (List (Option ℚ))
  running_max : Option (List (Option ℚ))
  drawdown : Option (List (Option ℚ))

/-- A raw input frame: base columns only, no derived columns yet. -/
def mkDF (ts : List ℤ) (close position : List ℚ) : DF :=
  ⟨ts, close, position, none, none, none, none, none, none⟩

/-- Helper for `close.pct_change()`: each element divided by its
predecessor, minus one. -/
def pct_change_go (prev : ℚ) : List ℚ → List ℚ
  | [] => []
  | c :: rest => (c / prev - 1) :: pct_change_go c rest

/-- Model of `df['close'].pct_change().fillna(0)`: the first entry (NaN) is filled
with 0.  A zero previous close is undefined behaviour in the source
(float ±inf/NaN); ℚ total division returns 0 there, so theorems about
returns carry a nonzero-close hypothesis. -/
def pct_change_fill : List ℚ → List ℚ
  | [] => []
  | c :: rest => 0 :: pct_change_go c rest

/-- Model of `Series.shift(1)`: NaN in front, last element dropped. -/
def shift1 : List ℚ → List (Option ℚ)
  | [] => []
  | x :: xs => none :: ((x :: xs).dropLast.map some)

/-- Elementwise product of the shifted position (possibly NaN) with a
return: NaN * r = NaN. -/
def shiftMul (op : Option ℚ) (r : ℚ) : Option ℚ := op.map (fun p => p * r)

/-- Skip-NaN cumulative fold shared by `cumsum` / `cumprod` / `cummax`
(pandas default `skipna=True`): a NaN entry stays NaN in the output and is
skipped by the accumulator; the first non-NaN entry seeds the
accumulator. -/
def cumBySkip (f : ℚ → ℚ → ℚ) : List (Option ℚ) → Option ℚ → List (Option ℚ)
  | [], _ => []
  | none :: rest, acc => none :: cumBySkip f rest acc
  | some x :: rest, none => some x :: cumBySkip f rest (some x)
  | some x :: rest, some a => some (f a x) :: cumBySkip f rest (some (f a x))

/-- One entry of `(equity_curve - running_max) / running_max`.  Both
operands are NaN together (index 0).  A zero running max (float `0/0` or
`x/0`) is modelled as missing; it is unreachable while the equity curve
stays away from 0. -/
def dd_entry (e r : Option ℚ) : Option ℚ :=
  match e, r with
  | some ev, some rv => if rv = 0 then none else some ((ev - rv) / rv)
  | _, _ => none

/-- Model of `Backtester.run_backtest` (backtest.py lines 10-33): derive `returns`,
`pnl`, `cumulative_pnl`, `equity_curve`, `running_max`, `drawdown` on a
copy of the input.  The metrics computed afterwards and the optional
printing do not change the returned frame. -/
def run_backtest (df : DF) : DF :=
  let r := pct_change_fill df.close
  let pl := List.zipWith shiftMul (shift1 df.position) r
  let cpl := cumBySkip (· + ·) pl none
  let ec := cumBySkip (· * ·) (pl.map (Option.map (fun v => 1 + v))) none
  let rm := cumBySkip max ec none
  let dd := List.zipWith dd_entry ec rm
  ⟨df.timestamp, df.close, df.position, some r, some pl, some cpl, some ec, some rm, some dd⟩

/-- Model of `Analyzer._prepare_data` (analyzer.py lines 174-195): fill in each
derived column only when absent; `running_max` is only added together
with `drawdown`. -/
def prepare_data (df0 : DF) : DF :=
  let r : List ℚ :=
    match df0.returns with
    | some v => v
    | none => pct_change_fill df0.close
  let pl : List (Option ℚ) :=
    match df0.pnl with
    | some v => v
    | none => List.zipWith shiftMul (shift1 df0.position) r
  let ec : List (Option ℚ) :=
    match df0.equity_curve with
    | some v => v
    | none => cumBySkip (· * ·) (pl.map (Option.map (fun v => 1 + v))) none
  match df0.drawdown with
  | some dd =>
      ⟨df0.timestamp, df0.close, df0.position, some r, some pl,
        df0.cumulative_pnl, some ec, df0.running_max, some dd⟩
  | none =>
      let rm := cumBySkip max ec none
      ⟨df0.timestamp, df0.close, df0.position, some r, some pl,
        df0.cumulative_pnl, some ec, some rm, some (List.zipWith dd_entry ec rm)⟩

/-- The `pnl` column of a frame that carries one. -/
def pnl_of (df : DF) : List (Option ℚ) := df.pnl.getD []

/-- The `returns` column of a frame that carries one. -/
def returns_of (df : DF) : List ℚ := df.returns.getD []

/-- The `equity_curve` column of a frame that carries one. -/
def equity_of (df : DF) : List (Option ℚ) := df.equity_curve.getD []

/-- The `running_max` column of a frame that carries one. -/
def running_max_of (df : DF) : List (Option ℚ) := df.running_max.getD []

/-- The `drawdown` column of a frame that carries one. -/
def drawdown_of (df : DF) : List (Option ℚ) := df.drawdown.getD []

/-- NaN-propagating addition used by the trade accumulator
(`current_trade_pnl += df['pnl'].iloc[i]`). -/
def opt_add : Option ℚ → Option ℚ → Option ℚ
  | some a, some b => some (a + b)
  | _, _ => none

/-- Loop body of `Analyzer._extract_trade_pnls` (analyzer.py lines
197-218), iterating over `(position, pnl)` rows with the
`in_trade` / `current_trade_pnl` state.  Entering a bar resets the
accumulator without adding that bar's pnl; an in-trade bar adds its pnl;
the exit bar adds its pnl and then appends the trade.  A trade still open
when the rows run out is dropped (no flush). -/
def extract_trade_pnls_aux : List (ℚ × Option ℚ) → Bool → Option ℚ → List (Option ℚ)
  | [], _, _ => []
  | (pos, q) :: rest, inTrade, cur =>
    if pos ≠ 0 then
      if inTrade then extract_trade_pnls_aux rest true (opt_add cur q)
      else extract_trade_pnls_aux rest true (some 0)
    else
      if inTrade then opt_add cur q :: extract_trade_pnls_aux rest false (some 0)
      else extract_trade_pnls_aux rest false cur

/-- Model of `Analyzer._extract_trade_pnls` on the zipped `position` / `pnl`
columns. -/
def trade_pnls (l : List (ℚ × Option ℚ)) : List (Option ℚ) :=
  extract_trade_pnls_aux l false (some 0)

/-- Loop body of `Analyzer.calculate_avg_trade_duration` (analyzer.py
lines 285-316): entering a bar starts the counter at 1, each further
in-trade bar adds 1, the exit bar appends the counter without counting
itself, and a trade still open at the end is flushed with its counter. -/
def trade_durations_aux : List ℚ → Bool → ℕ → List ℕ
  | [], inTrade, cur => if inTrade then [cur] else []
  | pos :: rest, inTrade, cur =>
    if pos ≠ 0 then
      if inTrade then trade_durations_aux rest true (cur + 1)
      else trade_durations_aux rest true 1
    else
      if inTrade then cur :: trade_durations_aux rest false 0
      else trade_durations_aux rest false cur

/-- The duration list built by `Analyzer.calculate_avg_trade_duration`. -/
def trade_durations (pos : List ℚ) : List ℕ :=
  trade_durations_aux pos false 0

/-- Test `trade pnl > 0` on a possibly-NaN trade pnl: `NaN > 0` is false in
numpy/Python. -/
def posOpt (o : Option ℚ) : Bool :=
  match o with
  | some q => decide (0 < q)
  | none => false

/-- Test `trade pnl < 0` on a possibly-NaN trade pnl: `NaN < 0` is false. -/
def negOpt (o : Option ℚ) : Bool :=
  match o with
  | some q => decide (q < 0)
  | none => false

/-- The fixed metrics record (field names are the dictionary keys of the
source). -/
structure Metrics where
  total_return : PyVal
  annual_return : PyVal
  sharpe : PyVal
  max_drawdown : PyVal
  calmar : PyVal
  total_trades : ℕ
  win_rate : PyVal
  sortino : PyVal
  profit_factor : PyVal
  time_in_market : PyVal
  avg_trade_duration : PyVal
  max_consecutive_losses : ℕ
  recovery_time : PyVal
deriving DecidableEq, Repr

/-- Model of `Analyzer._get_empty_metrics` (analyzer.py lines 220-236). -/
def get_empty_metrics : Metrics :=
  ⟨.num 0, .num 0, .num 0, .num 0, .num 0, 0, .num 0, .num 0, .num 0,
    .num 0, .num 0, 0, .num 0⟩

/-- Model of `Analyzer.calculate_total_return`: `(equity_curve.iloc[-1] - 1) * 100`
rounded to 2 places; 0 on an empty frame; NaN when the last equity value
is itself NaN.  Row count is read off the required `close` column. -/
def calculate_total_return (df0 : DF) : PyVal :=
  let df := if df0.equity_curve.isNone then prepare_data df0 else df0
  if df.close.length = 0 then .num 0
  else
    match (equity_of df).getLast? with
    | some (some q) => .num (py_round 2 ((q - 1) * 100))
    | _ => .nan

/-- Model of `Analyzer.calculate_annual_return`: `mean(pnl) * 365 * 100` rounded to
2 places, 0 on an empty series.  Always finite. -/
def calculate_annual_return (p : List ℚ) : ℚ :=
  if p.length = 0 then 0 else py_round 2 (mean p * 365 * 100)

/-- Model of `Analyzer.calculate_sharpe_ratio`, parameterised by the square-root
map `sq`.  `Series.std` is `sq (sample_var p)` and is NaN on a singleton
series, in which case the `std == 0` guard is false and the quotient is
NaN. -/
def calculate_sharpe (sq : ℚ → ℚ) (p : List ℚ) : PyVal :=
  if p.length = 0 then .num 0
  else if p.length = 1 then .nan
  else if sample_var p = 0 then .num 0
  else .num (py_round 3 (mean p / sq (sample_var p) * sq 365))

/-- Model of `Analyzer.calculate_sortino_ratio`: same structure over the negative
sub-series. -/
def calculate_sortino (sq : ℚ → ℚ) (p : List ℚ) : PyVal :=
  if p.length = 0 then .num 0
  else
    let ds := p.filter (fun x => decide (x < 0))
    if ds.length = 0 then .num 0
    else if ds.length = 1 then .nan
    else if sample_var ds = 0 then .num 0
    else .num (py_round 3 (mean p / sq (sample_var ds) * sq 365))

/-- Model of `Analyzer.calculate_max_drawdown`: `abs(min(drawdown) * 100)` rounded
to 2 places; `Series.min` skips NaN; a fully-NaN column yields NaN. -/
def calculate_max_drawdown (df0 : DF) : PyVal :=
  let df := if df0.drawdown.isNone then prepare_data df0 else df0
  if df.close.length = 0 then .num 0
  else
    match ((drawdown_of df).filterMap id).min? with
    | some m => .num (py_round 2 |m * 100|)
    | none => .nan

/-- Model of `Analyzer.calculate_calmar_ratio`: `annual_return / max_drawdown` with
the explicit near-zero-drawdown policy.  Comparisons against NaN are
false in Python, so a NaN max drawdown falls through to the division and
gives NaN. -/
def calculate_calmar (p : List ℚ) (df : DF) : PyVal :=
  let ar := calculate_annual_return p
  match calculate_max_drawdown df with
  | .num m =>
      if m = 0 ∨ m < 1/100 then (if 0 < ar then .inf else .num 0)
      else .num (py_round 3 (ar / m))
  | .nan => .nan
  | .inf => .num 0
  | .negInf => if 0 < ar then .inf else .num 0

/-- First difference of the position column with the leading NaN filled
with 0 (`df['position'].diff().fillna(0)`). -/
def diff_fill_zero : List ℚ → List ℚ
  | [] => []
  | x :: xs => 0 :: List.zipWith (fun a b => a - b) xs (x :: xs)

/-- Model of `Analyzer.calculate_total_trades` (analyzer.py lines 89-96): number of
nonzero first differences of `position`.  The `position`-column guard of
the source is always satisfied here because the model's frames carry the
column. -/
def calculate_total_trades (df : DF) : ℕ :=
  (diff_fill_zero df.position).countP (fun x => decide (x ≠ 0))

/-- Model of `Analyzer.calculate_win_rate`: share of resolved trades with positive
pnl, in percent; 0 when the `pnl` column is absent or no trade resolved. -/
def calculate_win_rate (df : DF) : PyVal :=
  match df.pnl with
  | none => .num 0
  | some pl =>
      let tps := trade_pnls (df.position.zip pl)
      if tps.length = 0 then .num 0
      else .num (py_round 2 (((tps.countP posOpt : ℕ) : ℚ) / (tps.length : ℚ) * 100))

/-- Model of `Analyzer.calculate_profit_factor`: gross profit of the resolved
trades over the absolute gross loss; the Python comprehensions drop a NaN
trade pnl on both sides. -/
def calculate_profit_factor (df : DF) : PyVal :=
  let tps := trade_pnls (df.position.zip (pnl_of df))
  if tps.length = 0 then .num 0
  else
    let gp := ((tps.filterMap id).filter (fun q => decide (0 < q))).sum
    let gl := |((tps.filterMap id).filter (fun q => decide (q < 0))).sum|
    if gl = 0 then (if 0 < gp then .inf else .num 0)
    else .num (py_round 2 (gp / gl))

/-- Model of `Analyzer.calculate_time_in_market`: share of bars with nonzero
position, in percent. -/
def calculate_time_in_market (df : DF) : PyVal :=
  if df.position.length = 0 then .num 0
  else .num (py_round 2 (((df.position.countP (fun x => decide (x ≠ 0)) : ℕ) : ℚ)
    / (df.position.length : ℚ) * 100))

/-- Model of `Analyzer.calculate_avg_trade_duration`: mean of the duration list
(which includes a still-open final trade), rounded to 1 place. -/
def calculate_avg_trade_duration (df : DF) : PyVal :=
  let ds := trade_durations df.position
  if ds.length = 0 then .num 0
  else .num (py_round 1 ((ds.map (fun n => (n : ℚ))).sum / (ds.length : ℚ)))

/-- Model of `Analyzer.calculate_max_consecutive_losses` (analyzer.py lines
318-335): longest run of negative resolved-trade pnls; a NaN pnl is not
`< 0` and resets the run. -/
def calculate_max_consecutive_losses (df : DF) : ℕ :=
  let tps := trade_pnls (df.position.zip (pnl_of df))
  if tps.length = 0 then 0
  else (tps.foldl
    (fun s o => if negOpt o then (max s.1 (s.2 + 1), s.2 + 1) else (s.1, 0))
    ((0 : ℕ), (0 : ℕ))).1

/-- Model of `Series.idxmin` with `skipna`: first index holding the minimum of the
non-NaN entries; `none` when every entry is NaN (where pandas raises;
that case is unreachable from `calculate_all_metrics`, whose degenerate
guard catches every frame with no defined pnl). -/
def idxmin_opt (l : List (Option ℚ)) : Option ℕ :=
  match (l.filterMap id).min? with
  | none => none
  | some m => l.findIdx? (fun o => decide (o = some m))

/-- Test `drawdown >= -0.001` on a possibly-NaN entry (`NaN >= x` is false). -/
def rec_pred (o : Option ℚ) : Bool :=
  match o with
  | some q => decide (-(1/1000 : ℚ) ≤ q)
  | none => false

/-- Model of `Analyzer.calculate_recovery_time` (analyzer.py lines 337-357): days
between the maximum-drawdown bar and the first later bar whose drawdown
is within -0.001 of zero; +inf if never; 0 when the drawdown column is
absent. -/
def calculate_recovery_time (df : DF) : PyVal :=
  match df.drawdown with
  | none => .num 0
  | some dd =>
      match idxmin_opt dd with
      | none => .nan
      | some i =>
          match (dd.drop i).findIdx? rec_pred with
          | none => .inf
          | some j =>
              .num (((max 0 ((df.timestamp.getD (i + j) 0) - (df.timestamp.getD i 0))) : ℤ) : ℚ)

/-- Model of `Analyzer.calculate_all_metrics` (analyzer.py lines 9-37): prepare the
frame when `pnl` is absent, then short-circuit to the empty record when
the dropna'd pnl series is empty or its standard deviation is zero.
`Series.std` is NaN (hence not `== 0`) on a singleton series, so the
second disjunct carries the length-2 guard. -/
def calculate_all_metrics (sq : ℚ → ℚ) (df0 : DF) : Metrics :=
  let df := if df0.pnl.isNone then prepare_data df0 else df0
  let p := (pnl_of df).filterMap id
  if p.length = 0 ∨ (2 ≤ p.length ∧ sample_var p = 0) then get_empty_metrics
  else
    { total_return := calculate_total_return df
      annual_return := .num (calculate_annual_return p)
      sharpe := calculate_sharpe sq p
      max_drawdown := calculate_max_drawdown df
      calmar := calculate_calmar p df
      total_trades := calculate_total_trades df
      win_rate := calculate_win_rate df
      sortino := calculate_sortino sq p
      profit_factor := calculate_profit_factor df
      time_in_market := calculate_time_in_market df
      avg_trade_duration := calculate_avg_trade_duration df
      max_consecutive_losses := calculate_max_consecutive_losses df
      recovery_time := calculate_recovery_time df }

/-- One point of the optimizer's parameter grid. -/
structure Params where
  window : ℚ
  threshold : ℚ
deriving DecidableEq, Repr

/-- Model of `Optimizer._generate_param_combinations` (optimizer.py lines 72-96)
for the list-of-values branch, with the dict insertion order
`window` before `threshold`: `itertools.product` of the two value
lists. -/
def generate_param_combinations (windows thresholds : List ℚ) : List Params :=
  windows.flatMap (fun w => thresholds.map (fun t => ⟨w, t⟩))

/-- Descending `sort_values` order on a metric column, NaN placed last
(`na_position='last'`), infinities at the extremes. -/
def pv_desc_before : PyVal → PyVal → Bool
  | _, .nan => true
  | .nan, _ => false
  | .inf, _ => true
  | _, .inf => false
  | .num a, .num b => decide (b ≤ a)
  | .num _, .negInf => true
  | .negInf, .num _ => false
  | .negInf, .negInf => true

/-- Row order used to model `results_df.sort_values(metric,
ascending=False)`. -/
def rowRel (key : Metrics → PyVal) (a b : Params × Metrics) : Prop :=
  pv_desc_before (key a.2) (key b.2) = true

instance (key : Metrics → PyVal) : DecidableRel (rowRel key) :=
  fun a b => instDecidableEqBool (pv_desc_before (key a.2) (key b.2)) true

/-- Model of `Optimizer.optimize_parameters` (optimizer.py lines 11-70), abstracted
over the per-combination evaluation `evalFn` (the try-block:
`strategy.generate_signals` — an external collaborator — followed by
`run_backtest` and `calculate_metrics`; `none` models a raised
exception, which the source logs and skips).  Each success appends
`(params, metrics)`.  An empty results list builds a column-less
DataFrame, on which `sort_values(metric)` raises KeyError: modelled as
`Except.error`.  `sort_values` guarantees only the key order and the row
multiset (its quicksort is unstable), which insertion sort realises. -/
def optimize_parameters (key : Metrics → PyVal) (evalFn : Params → Option Metrics)
    (windows thresholds : List ℚ) : Except Unit (List (Params × Metrics)) :=
  let combos := generate_param_combinations windows thresholds
  let results := combos.filterMap (fun p => (evalFn p).map (fun m => (p, m)))
  if results.length = 0 then .error ()
  else .ok (List.insertionSort (rowRel key) results)

/-- A heap of DataFrame objects, for stating that `run_backtest` never
writes through the caller's reference: `df_test = df.copy()` allocates a
fresh slot and every subsequent column assignment updates that slot
only. -/
def runBacktestHeap (σ : ℕ → DF) (dfRef freshRef : ℕ) : (ℕ → DF) × ℕ :=
  let σ1 := Function.update σ freshRef (σ dfRef)
  let σ2 := Function.update σ1 freshRef (run_backtest (σ1 freshRef))
  (σ2, freshRef)

/-- The `in_trade` flag after the segmenter has consumed the rows `l`
starting from flag `b`: each row overwrites it with `position ≠ 0`. -/
def final_in_trade (l : List (ℚ × Option ℚ)) (b : Bool) : Bool :=
  l.foldl (fun _ pq => decide (pq.1 ≠ 0)) b

/-- Number of bars in the maximal nonzero run at the end of a position
series (the bars of a trade still open at series end). -/
def trail_len (l : List ℚ) : ℕ :=
  (l.reverse.takeWhile (fun x => decide (x ≠ 0))).length

/-- Modelled from the claim's words (C10): the number of indices `t ≥ 1`
with `position[t] ≠ position[t-1]`, never counting the initial bar. -/
def change_count (l : List ℚ) : ℕ :=
  (l.zip l.tail).countP (fun ab => decide (ab.2 ≠ ab.1))

/- Concrete bar series used to instantiate and to refute claims. -/

/-- Two bars, nonzero position on the first bar. -/
def cx1_df : DF := mkDF [0, 1] [1, 2] [5, 4]

/-- Two bars with positions 3 and 4. -/
def w1_df : DF := mkDF [0, 1] [1, 2] [3, 4]

/-- Two bars, position identically zero. -/
def z2_df : DF := mkDF [0, 1] [1, 2] [0, 0]

/-- Three bars: short one unit, then long two units while the price keeps
rising, driving the equity curve negative. -/
def cx3_df : DF := mkDF [0, 1, 2] [1, 3, 9/2] [-1, 2, 0]

/-- Three bars: long one bar of a doubling price, then flat through a
pullback. -/
def w3_df : DF := mkDF [0, 1, 2] [1, 2, 1] [1, 1, 0]

/-- Rows for the open-trade witness: one closed trade, then a trade still
open on the last bar. -/
def w4_rows : List (ℚ × Option ℚ) := [(1, some 2), (0, some 3), (2, some 5)]

/-- Position series of concrete scenario B of the spec. -/
def c5_position : List ℚ := [0, 1, 1, 1, 0, 0, 1, 0]

/-- Per-bar pnl series of concrete scenario B. -/
def c5_pnl : List (Option ℚ) :=
  [some 0, some 2, some 3, some (-1), some 1, some 0, some (-2), some 1]

/-- Scenario B as a prepared frame (the pnl column given directly). -/
def c5_df : DF :=
  ⟨[0, 1, 2, 3, 4, 5, 6, 7], List.replicate 8 1, c5_position,
    none, some c5_pnl, none, none, none, none⟩

/-- Four bars with an initial nonzero position and two later position
changes. -/
def w10_df : DF := mkDF [0, 1, 2, 3] [1, 1, 1, 1] [2, 2, 0, 1]

/- Supporting lemmas -/

theorem pnl_run_backtest (df : DF) :
    pnl_of (run_backtest df)
      = List.zipWith shiftMul (shift1 df.position) (pct_change_fill df.close) := rfl

theorem returns_run_backtest (df : DF) :
    returns_of (run_backtest df) = pct_change_fill df.close := rfl

theorem equity_run_backtest (df : DF) :
    equity_of (run_backtest df)
      = cumBySkip (· * ·)
          ((pnl_of (run_backtest df)).map (Option.map (fun v => 1 + v))) none := rfl

theorem running_max_run_backtest (df : DF) :
    running_max_of (run_backtest df)
      = cumBySkip max (equity_of (run_backtest df)) none := rfl

theorem drawdown_run_backtest (df : DF) :
    drawdown_of (run_backtest df)
      = List.zipWith dd_entry (equity_of (run_backtest df))
          (running_max_of (run_backtest df)) := rfl

theorem length_pct_change_go (prev : ℚ) (l : List ℚ) :
    (pct_change_go prev l).length = l.length := by
  induction l generalizing prev with
  | nil => rfl
  | cons c rest ih => simp [pct_change_go, ih]

theorem length_pct_change_fill (l : List ℚ) :
    (pct_change_fill l).length = l.length := by
  cases l with
  | nil => rfl
  | cons c rest => simp [pct_change_fill, length_pct_change_go]

theorem shift1_get_succ (l : List ℚ) (t : ℕ) :
    (shift1 l)[t + 1]? = (l.dropLast[t]?).map some := by
  cases l with
  | nil => simp [shift1]
  | cons x xs =>
      rw [show shift1 (x :: xs) = none :: ((x :: xs).dropLast.map some) from rfl,
        List.getElem?_cons_succ, List.getElem?_map]

theorem shift1_replicate (m : ℕ) :
    shift1 (List.replicate (m + 1) 0) = none :: List.replicate m (some (0 : ℚ)) := by
  simp [shift1, List.replicate_succ, List.dropLast_replicate]

theorem zipWith_shiftMul_zero (rl : List ℚ) :
    List.zipWith shiftMul (List.replicate rl.length (some 0)) rl
      = List.replicate rl.length (some (0 : ℚ)) := by
  induction rl with
  | nil => rfl
  | cons r rest ih => simp [List.replicate_succ, shiftMul, ih]

theorem cumBySkip_ones (f : ℚ → ℚ → ℚ) (hf : f 1 1 = 1) (m : ℕ) :
    ∀ acc : Option ℚ, acc = none ∨ acc = some 1 →
      cumBySkip f (List.replicate m (some 1)) acc = List.replicate m (some 1) := by
  induction m with
  | zero => intro acc _; rfl
  | succ m ih =>
      intro acc hacc
      rcases hacc with h | h <;> subst h <;>
        simp [List.replicate_succ, cumBySkip, hf, ih (some 1) (Or.inr rfl)]

theorem zipWith_dd_ones (m : ℕ) :
    List.zipWith dd_entry (List.replicate m (some (1 : ℚ)))
      (List.replicate m (some 1)) = List.replicate m (some 0) := by
  induction m with
  | zero => rfl
  | succ m ih => simp [List.replicate_succ, dd_entry, ih]

theorem run_backtest_all_zero (df : DF) (m : ℕ)
    (hzero : ∀ x ∈ df.position, x = 0)
    (hlen : df.position.length = df.close.length)
    (hm : df.position.length = m + 1) :
    equity_of (run_backtest df) = none :: List.replicate m (some 1) ∧
    drawdown_of (run_backtest df) = none :: List.replicate m (some 0) := by
  have hrep : df.position = List.replicate (m + 1) 0 := by
    have h0 := List.eq_replicate_of_mem hzero
    rw [hm] at h0
    exact h0
  have hcl : df.close.length = m + 1 := by omega
  obtain ⟨c, cs, hc⟩ : ∃ c cs, df.close = c :: cs := by
    cases hcc : df.close with
    | nil => rw [hcc] at hcl; simp at hcl
    | cons c cs => exact ⟨c, cs, rfl⟩
  have hcs : cs.length = m := by
    rw [hc] at hcl
    simpa using hcl
  have hr : pct_change_fill df.close = 0 :: pct_change_go c cs := by
    rw [hc]; rfl
  have hrlen : (pct_change_go c cs).length = m := by
    rw [length_pct_change_go, hcs]
  have hpnl : pnl_of (run_backtest df) = none :: List.replicate m (some 0) := by
    rw [pnl_run_backtest, hrep, hr, shift1_replicate]
    show shiftMul none 0 :: List.zipWith shiftMul _ _ = _
    rw [← hrlen, zipWith_shiftMul_zero, hrlen]
    rfl
  have hec : equity_of (run_backtest df) = none :: List.replicate m (some 1) := by
    rw [equity_run_backtest, hpnl]
    show cumBySkip _ (none :: (List.replicate m (some 0)).map (Option.map (fun v => 1 + v))) none = _
    have : (List.replicate m (some (0 : ℚ))).map (Option.map (fun v => 1 + v))
        = List.replicate m (some 1) := by
      simp [List.map_replicate]
    rw [this]
    show none :: cumBySkip (· * ·) (List.replicate m (some 1)) none = _
    rw [cumBySkip_ones (· * ·) (by norm_num) m none (Or.inl rfl)]
  have hrm : running_max_of (run_backtest df) = none :: List.replicate m (some 1) := by
    rw [running_max_run_backtest, hec]
    show none :: cumBySkip max (List.replicate m (some 1)) none = _
    rw [cumBySkip_ones max (by simp) m none (Or.inl rfl)]
  refine ⟨hec, ?_⟩
  rw [drawdown_run_backtest, hec, hrm]
  show dd_entry none none :: List.zipWith dd_entry _ _ = _
  rw [zipWith_dd_ones]
  rfl

theorem countP_diff_pair (a : ℚ) (l : List ℚ) :
    (List.zipWith (fun u v => u - v) l (a :: l)).countP (fun x => decide (x ≠ 0))
      = ((a :: l).zip l).countP (fun ab => decide (ab.2 ≠ ab.1)) := by
  induction l generalizing a with
  | nil => rfl
  | cons b bs ih =>
      show ((b - a) :: List.zipWith _ bs (b :: bs)).countP _
        = ((a, b) :: (b :: bs).zip bs).countP _
      rw [List.countP_cons, List.countP_cons, ih b]
      congr 1
      simp [sub_ne_zero]

theorem total_trades_eq_change_count (df : DF) :
    calculate_total_trades df = change_count df.position := by
  unfold calculate_total_trades change_count
  cases h : df.position with
  | nil => rfl
  | cons x xs =>
      show ((0 : ℚ) :: List.zipWith (fun a b => a - b) xs (x :: xs)).countP
            (fun y => decide (y ≠ 0))
          = ((x :: xs).zip (x :: xs).tail).countP (fun ab => decide (ab.2 ≠ ab.1))
      rw [List.countP_cons, List.tail_cons, countP_diff_pair x xs]
      simp

theorem final_in_trade_cons (pq : ℚ × Option ℚ) (rest : List (ℚ × Option ℚ)) (b : Bool) :
    final_in_trade (pq :: rest) b = final_in_trade rest (decide (pq.1 ≠ 0)) := rfl

theorem durations_length_aux (l : List (ℚ × Option ℚ)) :
    ∀ (b : Bool) (c : Option ℚ) (d : ℕ),
      (trade_durations_aux (l.map Prod.fst) b d).length
        = (extract_trade_pnls_aux l b c).length
          + (if final_in_trade l b then 1 else 0) := by
  induction l with
  | nil =>
      intro b c d
      cases b <;> simp [trade_durations_aux, extract_trade_pnls_aux, final_in_trade]
  | cons pq rest ih =>
      intro b c d
      obtain ⟨p, q⟩ := pq
      rw [List.map_cons, final_in_trade_cons]
      by_cases hp : p ≠ 0
      · cases b
        · simp [trade_durations_aux, extract_trade_pnls_aux, hp]
          exact ih true (some 0) 1
        · simp [trade_durations_aux, extract_trade_pnls_aux, hp]
          exact ih true (opt_add c q) (d + 1)
      · cases b
        · simp [trade_durations_aux, extract_trade_pnls_aux, hp]
          exact ih false c d
        · simp [trade_durations_aux, extract_trade_pnls_aux, hp]
          rw [ih false (some 0) 0]
          omega

theorem final_of_getLast (l : List (ℚ × Option ℚ)) :
    ∀ (b : Bool) (p : ℚ), (l.map Prod.fst).getLast? = some p → p ≠ 0 →
      final_in_trade l b = true := by
  induction l with
  | nil => intro b p h _; simp at h
  | cons x rest ih =>
      intro b p h hp
      cases hr : rest with
      | nil =>
          subst hr
          simp only [List.map_cons, List.map_nil, List.getLast?_singleton,
            Option.some_inj] at h
          subst h
          simp [final_in_trade, hp]
      | cons y rest2 =>
          subst hr
          rw [List.map_cons, List.map_cons, List.getLast?_cons_cons] at h
          rw [final_in_trade_cons]
          exact ih _ p h hp

theorem dur_append_zero (l : List ℚ) :
    ∀ (b : Bool) (d : ℕ),
      trade_durations_aux (l ++ [0]) b d = trade_durations_aux l b d := by
  induction l with
  | nil =>
      intro b d
      cases b <;> simp [trade_durations_aux]
  | cons x rest ih =>
      intro b d
      by_cases hx : x ≠ 0 <;> cases b <;>
        simp [trade_durations_aux, hx, ih]

theorem extract_append_zero (l : List (ℚ × Option ℚ)) :
    ∀ (b : Bool) (c : Option ℚ), final_in_trade l b = true →
      ∃ q, extract_trade_pnls_aux (l ++ [(0, some 0)]) b c
        = extract_trade_pnls_aux l b c ++ [q] := by
  induction l with
  | nil =>
      intro b c hb
      have : b = true := hb
      subst this
      exact ⟨opt_add c (some 0), by simp [extract_trade_pnls_aux]⟩
  | cons pq rest ih =>
      intro b c hb
      obtain ⟨p, q⟩ := pq
      rw [final_in_trade_cons] at hb
      by_cases hp : p ≠ 0
      · rw [show (decide ((p, q).1 ≠ 0)) = true by simpa using hp] at hb
        cases b
        · obtain ⟨q0, hq0⟩ := ih true (some 0) hb
          refine ⟨q0, ?_⟩
          rw [List.cons_append]
          simp [extract_trade_pnls_aux, hp, hq0]
        · obtain ⟨q0, hq0⟩ := ih true (opt_add c q) hb
          refine ⟨q0, ?_⟩
          rw [List.cons_append]
          simp [extract_trade_pnls_aux, hp, hq0]
      · rw [show (decide ((p, q).1 ≠ 0)) = false by simpa using hp] at hb
        cases b
        · obtain ⟨q0, hq0⟩ := ih false c hb
          refine ⟨q0, ?_⟩
          rw [List.cons_append]
          simp [extract_trade_pnls_aux, hp, hq0]
        · obtain ⟨q0, hq0⟩ := ih false (some 0) hb
          refine ⟨q0, ?_⟩
          rw [List.cons_append]
          simp [extract_trade_pnls_aux, hp, hq0]

theorem takeWhile_append_of_all {α : Type} {p : α → Bool} :
    ∀ (u v : List α), u.all p = true → (u ++ v).takeWhile p = u ++ v.takeWhile p := by
  intro u v h
  induction u with
  | nil => simp
  | cons a u ih =>
      rw [List.all_cons, Bool.and_eq_true] at h
      rw [List.cons_append, List.takeWhile_cons, if_pos h.1, ih h.2,
        List.cons_append]

theorem takeWhile_append_of_not_all {α : Type} {p : α → Bool} :
    ∀ (u v : List α), u.all p = false → (u ++ v).takeWhile p = u.takeWhile p := by
  intro u v h
  induction u with
  | nil => simp at h
  | cons a u ih =>
      rw [List.all_cons] at h
      rw [List.cons_append, List.takeWhile_cons, List.takeWhile_cons]
      cases hpa : p a with
      | false => rfl
      | true =>
          rw [hpa, Bool.true_and] at h
          rw [ih h]

theorem trail_len_of_all (l : List ℚ) (h : l.all (fun v => decide (v ≠ 0)) = true) :
    trail_len l = l.length := by
  unfold trail_len
  have h2 : l.reverse.all (fun v => decide (v ≠ 0)) = true := by
    rw [List.all_reverse]; exact h
  have h3 := takeWhile_append_of_all (p := fun v => decide (v ≠ 0)) l.reverse [] h2
  rw [List.append_nil] at h3
  simp only [List.takeWhile_nil, List.append_nil] at h3
  rw [h3, List.length_reverse]

theorem trail_len_cons_of_all (x : ℚ) (l : List ℚ)
    (h : l.all (fun v => decide (v ≠ 0)) = true) :
    trail_len (x :: l) = l.length + (if x ≠ 0 then 1 else 0) := by
  unfold trail_len
  rw [List.reverse_cons,
    takeWhile_append_of_all l.reverse [x] (by rw [List.all_reverse]; exact h),
    List.length_append, List.length_reverse]
  congr 1
  by_cases hx : x ≠ 0
  · rw [if_pos hx]
    simp [List.takeWhile_cons, hx]
  · rw [if_neg hx]
    simp only [ne_eq, not_not] at hx
    simp [List.takeWhile_cons, hx]

theorem trail_len_cons_of_not_all (x : ℚ) (l : List ℚ)
    (h : l.all (fun v => decide (v ≠ 0)) = false) :
    trail_len (x :: l) = trail_len l := by
  unfold trail_len
  rw [List.reverse_cons,
    takeWhile_append_of_not_all l.reverse [x] (by rw [List.all_reverse]; exact h)]

theorem getLast?_cons_of_ne_nil {α : Type} (a : α) (l : List α) (h : l ≠ []) :
    (a :: l).getLast? = l.getLast? := by
  cases l with
  | nil => exact absurd rfl h
  | cons b t => rw [List.getLast?_cons_cons]

theorem all_nz_of_forall (l : List ℚ) (h : ∀ v ∈ l, v ≠ 0) :
    l.all (fun v => decide (v ≠ 0)) = true := by
  rw [List.all_eq_true]
  intro v hv
  exact decide_eq_true (h v hv)

theorem all_nz_false_of_mem (l : List ℚ) (h : (0 : ℚ) ∈ l) :
    l.all (fun v => decide (v ≠ 0)) = false := by
  cases hb : l.all (fun v => decide (v ≠ 0)) with
  | false => rfl
  | true =>
      have := List.all_eq_true.mp hb 0 h
      simp at this

theorem trail_len_cons_zero (l : List ℚ) :
    trail_len ((0 : ℚ) :: l) = trail_len l := by
  cases hall : l.all (fun v => decide (v ≠ 0)) with
  | true =>
      rw [trail_len_cons_of_all _ _ hall, trail_len_of_all _ hall]
      simp
  | false => exact trail_len_cons_of_not_all _ _ hall

theorem durations_aux_getLast_all_nz (l : List ℚ) :
    ∀ (b : Bool) (d : ℕ), l ≠ [] → (∀ v ∈ l, v ≠ 0) →
      (trade_durations_aux l b d).getLast?
        = some (l.length + (if b = true then d else 0)) := by
  induction l with
  | nil => intro b d h _; exact absurd rfl h
  | cons x rest ih =>
      intro b d _ hall
      have hx : x ≠ 0 := hall x (List.mem_cons_self x rest)
      cases hr : rest with
      | nil =>
          subst hr
          cases b
          · simp [trade_durations_aux, hx]
          · simp [trade_durations_aux, hx]
            omega
      | cons y rest2 =>
          subst hr
          have hrest : ∀ v ∈ y :: rest2, v ≠ 0 :=
            fun v hv => hall v (List.mem_cons_of_mem x hv)
          cases b
          · rw [show trade_durations_aux (x :: y :: rest2) false d
                = trade_durations_aux (y :: rest2) true 1 by
                  simp [trade_durations_aux, hx]]
            rw [ih true 1 (by simp) hrest]
            simp
          · rw [show trade_durations_aux (x :: y :: rest2) true d
                = trade_durations_aux (y :: rest2) true (d + 1) by
                  simp [trade_durations_aux, hx]]
            rw [ih true (d + 1) (by simp) hrest]
            simp
            omega

theorem durations_aux_getLast_mem_zero (l : List ℚ) :
    ∀ (b : Bool) (d : ℕ) (p : ℚ), (0 : ℚ) ∈ l → l.getLast? = some p → p ≠ 0 →
      (trade_durations_aux l b d).getLast? = some (trail_len l) := by
  induction l with
  | nil => intro b d p h; simp at h
  | cons x rest ih =>
      intro b d p hmem hlast hp
      cases hr : rest with
      | nil =>
          subst hr
          rw [List.getLast?_singleton, Option.some_inj] at hlast
          subst hlast
          simp only [List.mem_singleton] at hmem
          exact absurd hmem.symm hp
      | cons y rest2 =>
          subst hr
          have hlast2 : (y :: rest2).getLast? = some p := by
            rw [← List.getLast?_cons_cons (a := x)]
            exact hlast
          by_cases hx : x ≠ 0
          · have hmem2 : (0 : ℚ) ∈ y :: rest2 := by
              rcases List.mem_cons.mp hmem with h0 | h0
              · exact absurd h0.symm hx
              · exact h0
            have htl := trail_len_cons_of_not_all x _ (all_nz_false_of_mem _ hmem2)
            cases b
            · rw [show trade_durations_aux (x :: y :: rest2) false d
                  = trade_durations_aux (y :: rest2) true 1 by
                    simp [trade_durations_aux, hx]]
              rw [ih true 1 p hmem2 hlast2 hp, htl]
            · rw [show trade_durations_aux (x :: y :: rest2) true d
                  = trade_durations_aux (y :: rest2) true (d + 1) by
                    simp [trade_durations_aux, hx]]
              rw [ih true (d + 1) p hmem2 hlast2 hp, htl]
          · simp only [ne_eq, not_not] at hx
            subst hx
            by_cases hzr : (0 : ℚ) ∈ y :: rest2
            · cases b
              · rw [show trade_durations_aux ((0 : ℚ) :: y :: rest2) false d
                    = trade_durations_aux (y :: rest2) false d by
                      simp [trade_durations_aux]]
                rw [ih false d p hzr hlast2 hp, trail_len_cons_zero]
              · have hres := ih false 0 p hzr hlast2 hp
                have hne : trade_durations_aux (y :: rest2) false 0 ≠ [] := by
                  intro h0
                  rw [h0] at hres
                  simp at hres
                rw [show trade_durations_aux ((0 : ℚ) :: y :: rest2) true d
                    = d :: trade_durations_aux (y :: rest2) false 0 by
                      simp [trade_durations_aux]]
                rw [getLast?_cons_of_ne_nil _ _ hne, hres, trail_len_cons_zero]
            · have hallr : ∀ v ∈ y :: rest2, v ≠ 0 := by
                intro v hv h0
                subst h0
                exact hzr hv
              have htl : trail_len ((0 : ℚ) :: y :: rest2) = (y :: rest2).length := by
                rw [trail_len_cons_zero, trail_len_of_all _ (all_nz_of_forall _ hallr)]
              cases b
              · rw [show trade_durations_aux ((0 : ℚ) :: y :: rest2) false d
                    = trade_durations_aux (y :: rest2) false d by
                      simp [trade_durations_aux]]
                rw [durations_aux_getLast_all_nz _ false d (by simp) hallr, htl]
                simp
              · have hres := durations_aux_getLast_all_nz (y :: rest2) false 0 (by simp) hallr
                have hne : trade_durations_aux (y :: rest2) false 0 ≠ [] := by
                  intro h0
                  rw [h0] at hres
                  simp at hres
                rw [show trade_durations_aux ((0 : ℚ) :: y :: rest2) true d
                    = d :: trade_durations_aux (y :: rest2) false 0 by
                      simp [trade_durations_aux]]
                rw [getLast?_cons_of_ne_nil _ _ hne, hres, htl]
                simp

theorem durations_getLast_trail (l : List ℚ) (p : ℚ)
    (h : l.getLast? = some p) (hp : p ≠ 0) :
    (trade_durations l).getLast? = some (trail_len l) := by
  by_cases hz : (0 : ℚ) ∈ l
  · exact durations_aux_getLast_mem_zero l false 0 p hz h hp
  · have hall : ∀ v ∈ l, v ≠ 0 := by
      intro v hv h0
      subst h0
      exact hz hv
    have hne : l ≠ [] := by
      intro h0
      rw [h0] at h
      simp at h
    unfold trade_durations
    rw [durations_aux_getLast_all_nz l false 0 hne hall,
      trail_len_of_all l (all_nz_of_forall l hall)]
    simp

theorem cumMax_ge_acc (l : List (Option ℚ)) :
    ∀ (a : ℚ) (j : ℕ) (y : ℚ),
      (cumBySkip max l (some a))[j]? = some (some y) → a ≤ y := by
  induction l with
  | nil => intro a j y h; simp [cumBySkip] at h
  | cons o rest ih =>
      intro a j y h
      cases o with
      | none =>
          rw [show cumBySkip max (none :: rest) (some a)
              = none :: cumBySkip max rest (some a) from rfl] at h
          cases j with
          | zero => simp at h
          | succ j => exact ih a j y (by simpa using h)
      | some v =>
          rw [show cumBySkip max (some v :: rest) (some a)
              = some (max a v) :: cumBySkip max rest (some (max a v)) from rfl] at h
          cases j with
          | zero =>
              simp only [List.getElem?_cons_zero, Option.some_inj] at h
              rw [← h]
              exact le_max_left a v
          | succ j =>
              exact le_trans (le_max_left a v) (ih (max a v) j y (by simpa using h))

theorem cumMax_ge_self (l : List (Option ℚ)) :
    ∀ (acc : Option ℚ) (t : ℕ) (x : ℚ), l[t]? = some (some x) →
      ∃ y, (cumBySkip max l acc)[t]? = some (some y) ∧ x ≤ y := by
  induction l with
  | nil => intro acc t x h; simp at h
  | cons o rest ih =>
      intro acc t x h
      cases o with
      | none =>
          have hstep : cumBySkip max (none :: rest) acc
              = none :: cumBySkip max rest acc := rfl
          cases t with
          | zero => simp at h
          | succ t =>
              obtain ⟨y, hy, hxy⟩ := ih acc t x (by simpa using h)
              refine ⟨y, ?_, hxy⟩
              rw [hstep, List.getElem?_cons_succ]
              exact hy
      | some v =>
          obtain ⟨w, hw⟩ : ∃ w, cumBySkip max (some v :: rest) acc
              = some w :: cumBySkip max rest (some w) ∧ v ≤ w := by
            cases acc with
            | none => exact ⟨v, rfl, le_refl v⟩
            | some a => exact ⟨max a v, rfl, le_max_right a v⟩
          cases t with
          | zero =>
              have hvx : v = x := by simpa using h
              subst hvx
              refine ⟨w, ?_, hw.2⟩
              rw [hw.1]
              simp
          | succ t =>
              obtain ⟨y, hy, hxy⟩ := ih (some w) t x (by simpa using h)
              refine ⟨y, ?_, hxy⟩
              rw [hw.1, List.getElem?_cons_succ]
              exact hy

theorem cumMax_mono (l : List (Option ℚ)) :
    ∀ (acc : Option ℚ) (i j : ℕ) (x y : ℚ), i ≤ j →
      (cumBySkip max l acc)[i]? = some (some x) →
      (cumBySkip max l acc)[j]? = some (some y) → x ≤ y := by
  induction l with
  | nil => intro acc i j x y _ h; simp [cumBySkip] at h
  | cons o rest ih =>
      intro acc i j x y hij hi hj
      cases o with
      | none =>
          have hstep : ∀ acc2, cumBySkip max (none :: rest) acc2
              = none :: cumBySkip max rest acc2 := fun _ => rfl
          rw [hstep] at hi hj
          cases i with
          | zero => simp at hi
          | succ i =>
              cases j with
              | zero => omega
              | succ j =>
                  exact ih acc i j x y (by omega) (by simpa using hi) (by simpa using hj)
      | some v =>
          -- the emitted head value also becomes the new accumulator
          obtain ⟨w, hw⟩ : ∃ w, cumBySkip max (some v :: rest) acc
              = some w :: cumBySkip max rest (some w) := by
            cases acc with
            | none => exact ⟨v, rfl⟩
            | some a => exact ⟨max a v, rfl⟩
          rw [hw] at hi hj
          cases i with
          | zero =>
              have hwx : w = x := by simpa using hi
              subst hwx
              cases j with
              | zero =>
                  have hwy : w = y := by simpa using hj
                  rw [hwy]
              | succ j =>
                  exact cumMax_ge_acc rest w j y (by simpa using hj)
          | succ i =>
              cases j with
              | zero => omega
              | succ j =>
                  exact ih (some w) i j x y (by omega) (by simpa using hi) (by simpa using hj)

theorem pv_desc_before_total (a b : PyVal) :
    pv_desc_before a b = true ∨ pv_desc_before b a = true := by
  cases a <;> cases b <;> simp [pv_desc_before] <;> exact le_total _ _

theorem pv_desc_before_trans (a b c : PyVal) :
    pv_desc_before a b = true → pv_desc_before b c = true →
    pv_desc_before a c = true := by
  cases a <;> cases b <;> cases c <;> simp [pv_desc_before] <;>
    intro h1 h2 <;> exact le_trans h2 h1

theorem rowRel_total (key : Metrics → PyVal) :
    IsTotal (Params × Metrics) (rowRel key) :=
  ⟨fun a b => pv_desc_before_total (key a.2) (key b.2)⟩

theorem rowRel_trans (key : Metrics → PyVal) :
    IsTrans (Params × Metrics) (rowRel key) :=
  ⟨fun _ _ _ h1 h2 => pv_desc_before_trans _ _ _ h1 h2⟩

theorem optimize_ok_of_results (key : Metrics → PyVal) (evalFn : Params → Option Metrics)
    (ws ts : List ℚ) (res : List (Params × Metrics))
    (hres : (generate_param_combinations ws ts).filterMap
        (fun p => (evalFn p).map (fun m => (p, m))) = res)
    (hne : res ≠ []) :
    ∃ out, optimize_parameters key evalFn ws ts = .ok out ∧
      out.Perm res ∧ List.Sorted (rowRel key) out := by
  refine ⟨List.insertionSort (rowRel key) res, ?_, ?_, ?_⟩
  · simp [optimize_parameters, hres, List.length_eq_zero, hne]
  · exact List.perm_insertionSort _ _
  · haveI := rowRel_total key
    haveI := rowRel_trans key
    exact List.sorted_insertionSort _ _

/- Claim theorems -/

/-- Claim C1, counterexample: on a two-bar series whose first bar holds
position 5, the first `pnl` entry produced by `run_backtest` is NaN
(`position.shift(1)` puts NaN at index 0 and `NaN * returns[0] = NaN`),
not 0 as the claim states. -/
theorem c1_first_pnl_missing_cx :
    (pnl_of (run_backtest cx1_df))[0]? ≠ some (some 0) ∧
    (pnl_of (run_backtest cx1_df))[0]? = some none := by
  exact ⟨by decide, by decide⟩

/-- Claim C1, amended: for every bar series (position and close columns of
equal length), the first `pnl` entry is missing (NaN) — it is dropped by
`dropna` and skipped by every cumulative aggregation, so the first bar
contributes no PnL — and for every t ≥ 1,
`pnl[t] = position[t-1] * returns[t]`. -/
theorem c1_pnl_lag_amended (df : DF)
    (hlen : df.position.length = df.close.length) :
    (df.position ≠ [] → (pnl_of (run_backtest df))[0]? = some none) ∧
    (∀ t p r, df.position[t]? = some p →
      (returns_of (run_backtest df))[t + 1]? = some r →
      (pnl_of (run_backtest df))[t + 1]? = some (some (p * r))) := by
  constructor
  · intro hne
    obtain ⟨x, xs, hx⟩ := List.exists_cons_of_ne_nil hne
    have hcne : df.close ≠ [] := by
      intro h0
      rw [h0] at hlen
      simp only [List.length_nil] at hlen
      exact hne (List.eq_nil_of_length_eq_zero hlen)
    obtain ⟨c, cs, hc⟩ := List.exists_cons_of_ne_nil hcne
    rw [pnl_run_backtest, hx, hc, List.getElem?_zipWith']
    simp [shift1, pct_change_fill, shiftMul]
  · intro t p r hp hr
    rw [returns_run_backtest] at hr
    have ht : t + 1 < df.close.length := by
      by_contra hcon
      have hnone : (pct_change_fill df.close)[t + 1]? = none := by
        apply List.getElem?_eq_none
        rw [length_pct_change_fill]
        omega
      rw [hnone] at hr
      cases hr
    have hposlen : t < df.position.length - 1 := by omega
    rw [pnl_run_backtest, List.getElem?_zipWith', shift1_get_succ,
      List.getElem?_dropLast, if_pos hposlen, hp, hr]
    simp [shiftMul]

/-- Claim C1 witness: on the two-bar series with positions 3 and 4 and
closes 1 and 2, `pnl[0]` is missing and `pnl[1] = 3 * 1`. -/
theorem c1_pnl_lag_amended_inst :
    (pnl_of (run_backtest w1_df))[0]? = some none ∧
    (pnl_of (run_backtest w1_df))[1]? = some (some ((3 : ℚ) * 1)) := by
  have h := c1_pnl_lag_amended w1_df (by decide)
  have hret : (returns_of (run_backtest w1_df))[0 + 1]? = some 1 := by
    norm_num [returns_run_backtest, w1_df, mkDF, pct_change_fill, pct_change_go]
  exact ⟨h.1 (by decide), h.2 0 3 1 (by decide) hret⟩

/-- Claim C2, counterexample: with an all-zero position series the first
period of `equity_curve` is NaN, not 1.0, and the first drawdown entry is
NaN, not 0 (the claim's "including the first" fails). -/
theorem c2_all_zero_cx :
    (equity_of (run_backtest z2_df))[0]? ≠ some (some 1) ∧
    (drawdown_of (run_backtest z2_df))[0]? ≠ some (some 0) ∧
    (equity_of (run_backtest z2_df))[0]? = some none := by
  exact ⟨by decide, by decide, by decide⟩

/-- Claim C2, amended: for every bar series with nonzero closes and an
all-zero position column, `run_backtest` yields `equity_curve = 1.0` and
`drawdown = 0` at every period `t ≥ 1`, while at the first period both
are missing (NaN). -/
theorem c2_all_zero_amended (df : DF)
    (hzero : ∀ x ∈ df.position, x = 0)
    (hc : ∀ c ∈ df.close, c ≠ 0)
    (hlen : df.position.length = df.close.length) :
    (df.position ≠ [] →
      (equity_of (run_backtest df))[0]? = some none ∧
      (drawdown_of (run_backtest df))[0]? = some none) ∧
    (∀ t, t + 1 < df.position.length →
      (equity_of (run_backtest df))[t + 1]? = some (some 1) ∧
      (drawdown_of (run_backtest df))[t + 1]? = some (some 0)) := by
  cases hm : df.position.length with
  | zero =>
      have hnil : df.position = [] := List.eq_nil_of_length_eq_zero hm
      constructor
      · intro hne
        exact absurd hnil hne
      · intro t ht
        omega
  | succ m =>
      obtain ⟨hec, hdd⟩ := run_backtest_all_zero df m hzero hlen hm
      constructor
      · intro _
        rw [hec, hdd]
        constructor <;> simp
      · intro t ht
        have htm : t < m := by omega
        rw [hec, hdd]
        constructor
        · rw [List.getElem?_cons_succ, List.getElem?_replicate, if_pos htm]
        · rw [List.getElem?_cons_succ, List.getElem?_replicate, if_pos htm]

/-- Claim C2 witness: the two-bar all-zero-position series has
`equity_curve[1] = 1` and `drawdown[1] = 0`. -/
theorem c2_all_zero_amended_inst :
    (equity_of (run_backtest z2_df))[1]? = some (some 1) ∧
    (drawdown_of (run_backtest z2_df))[1]? = some (some 0) := by
  have h := c2_all_zero_amended z2_df (by decide) (by decide) (by decide)
  exact h.2 0 (by decide)

/-- Claim C3, counterexample: with closes 1, 3, 9/2 and positions -1, 2
the equity curve turns negative, the running max is negative, and
`drawdown[2] = 1 > 0`, refuting "drawdown[t] <= 0 at every t". -/
theorem c3_drawdown_sign_cx :
    ¬ (∀ (t : ℕ) (d : ℚ),
      (drawdown_of (run_backtest cx3_df))[t]? = some (some d) → d ≤ 0) := by
  intro h
  have h1 := h 2 1 (by
    norm_num [cx3_df, mkDF, run_backtest, drawdown_of, pct_change_fill,
      pct_change_go, shift1, shiftMul, cumBySkip, dd_entry, max_def,
      List.zipWith])
  norm_num at h1

/-- Claim C3, amended: in the output of `run_backtest` (on a series with
nonzero closes) the defined entries of `running_max` are non-decreasing,
`running_max[t] >= equity_curve[t]` at every defined t, and
`drawdown[t] <= 0` at every t where `running_max[t] > 0` — the sign claim
holds only while the running maximum is positive; index 0 of all three
columns is missing, and a negative running max (equity curve gone
negative under leverage) makes the drawdown positive. -/
theorem c3_invariants_amended (df : DF) (hc : ∀ c ∈ df.close, c ≠ 0) :
    (∀ (i j : ℕ) (x y : ℚ), i ≤ j →
      (running_max_of (run_backtest df))[i]? = some (some x) →
      (running_max_of (run_backtest df))[j]? = some (some y) → x ≤ y) ∧
    (∀ (t : ℕ) (x y : ℚ),
      (equity_of (run_backtest df))[t]? = some (some x) →
      (running_max_of (run_backtest df))[t]? = some (some y) → x ≤ y) ∧
    (∀ (t : ℕ) (y d : ℚ),
      (running_max_of (run_backtest df))[t]? = some (some y) → 0 < y →
      (drawdown_of (run_backtest df))[t]? = some (some d) → d ≤ 0) := by
  refine ⟨?_, ?_, ?_⟩
  · intro i j x y hij hi hj
    rw [running_max_run_backtest] at hi hj
    exact cumMax_mono _ none i j x y hij hi hj
  · intro t x y he hr
    rw [running_max_run_backtest] at hr
    obtain ⟨w, hw, hxw⟩ := cumMax_ge_self _ none t x he
    have hwy : w = y := by
      have h2 := hw.symm.trans hr
      simpa using h2
    exact hwy ▸ hxw
  · intro t y d hrm hy hdd
    rw [drawdown_run_backtest] at hdd
    obtain ⟨e, r2, he, hr2, hf⟩ := List.getElem?_zipWith_eq_some.mp hdd
    have hr2y : r2 = some y := by
      have h2 := hr2.symm.trans hrm
      simpa using h2
    subst hr2y
    cases e with
    | none => simp [dd_entry] at hf
    | some ev =>
        have hy0 : y ≠ 0 := ne_of_gt hy
        rw [show dd_entry (some ev) (some y) = some ((ev - y) / y) by
          simp [dd_entry, hy0]] at hf
        have hd : (ev - y) / y = d := by simpa using hf
        have hev : ev ≤ y := by
          rw [running_max_run_backtest] at hrm
          obtain ⟨w, hw, hevw⟩ := cumMax_ge_self _ none t ev he
          have hwy : w = y := by
            have h2 := hw.symm.trans hrm
            simpa using h2
          exact hwy ▸ hevw
        rw [← hd]
        have h1 : ev - y ≤ 0 := sub_nonpos.mpr hev
        exact div_nonpos_of_nonpos_of_nonneg h1 hy.le

/-- Claim C3 witness: on a three-bar long-then-flat series the theorem
yields `drawdown[2] = -1/2 ≤ 0` (its running max 2 is positive). -/
theorem c3_invariants_amended_inst :
    ∃ d, (drawdown_of (run_backtest w3_df))[2]? = some (some d) ∧ d ≤ 0 := by
  have h := c3_invariants_amended w3_df (by decide)
  have hrm : (running_max_of (run_backtest w3_df))[2]? = some (some 2) := by
    norm_num [w3_df, mkDF, run_backtest, running_max_of, equity_of,
      pct_change_fill, pct_change_go, shift1, shiftMul, cumBySkip, max_def,
      List.zipWith]
  have hdd : (drawdown_of (run_backtest w3_df))[2]? = some (some ((-1 : ℚ) / 2)) := by
    norm_num [w3_df, mkDF, run_backtest, drawdown_of, pct_change_fill,
      pct_change_go, shift1, shiftMul, cumBySkip, dd_entry, max_def,
      List.zipWith]
  exact ⟨(-1 : ℚ) / 2, hdd,
    h.2.2 2 2 ((-1 : ℚ) / 2) hrm (by norm_num) hdd⟩

/-- Claim C4: a position series ending in a still-open trade yields one
more entry in the duration list than in the resolved-trade pnl list;
closing that trade with one extra flat bar leaves the duration list
unchanged and appends exactly one pnl; and the open trade's recorded
duration is the length of the trailing nonzero run (counted up to the
last bar). -/
theorem c4_open_trade_asymmetry (l : List (ℚ × Option ℚ)) (p : ℚ)
    (h1 : (l.map Prod.fst).getLast? = some p) (h2 : p ≠ 0) :
    (trade_durations (l.map Prod.fst)).length = (trade_pnls l).length + 1 ∧
    trade_durations (l.map Prod.fst ++ [0]) = trade_durations (l.map Prod.fst) ∧
    (∃ q, trade_pnls (l ++ [(0, some 0)]) = trade_pnls l ++ [q]) ∧
    (trade_durations (l.map Prod.fst)).getLast?
      = some (trail_len (l.map Prod.fst)) := by
  have hfin : final_in_trade l false = true := final_of_getLast l false p h1 h2
  refine ⟨?_, ?_, ?_, ?_⟩
  · unfold trade_durations trade_pnls
    rw [durations_length_aux l false (some 0) 0, if_pos hfin]
  · unfold trade_durations
    exact dur_append_zero (l.map Prod.fst) false 0
  · unfold trade_pnls
    exact extract_append_zero l false (some 0) hfin
  · exact durations_getLast_trail (l.map Prod.fst) p h1 h2

/-- Claim C4 witness: rows with one closed trade followed by an open one. -/
theorem c4_open_trade_asymmetry_inst :
    (trade_durations (w4_rows.map Prod.fst)).length = (trade_pnls w4_rows).length + 1 ∧
    trade_durations (w4_rows.map Prod.fst ++ [0])
      = trade_durations (w4_rows.map Prod.fst) ∧
    (∃ q, trade_pnls (w4_rows ++ [(0, some 0)]) = trade_pnls w4_rows ++ [q]) ∧
    (trade_durations (w4_rows.map Prod.fst)).getLast?
      = some (trail_len (w4_rows.map Prod.fst)) :=
  c4_open_trade_asymmetry w4_rows 2 (by decide) (by decide)

/-- Claim C5, counterexample: on scenario B the segmenter does not produce
trade pnls 5 and -1 with durations 4 and 2, nor win_rate 50 and one
consecutive loss — the entry bar's pnl is never added and the exit bar is
not counted in the duration. -/
theorem c5_scenario_cx :
    ¬ (trade_pnls (c5_position.zip c5_pnl) = [some 5, some (-1)] ∧
       trade_durations c5_position = [4, 2] ∧
       calculate_win_rate c5_df = .num 50 ∧
       calculate_max_consecutive_losses c5_df = 1) := by
  intro hcontra
  have h1 := hcontra.1
  rw [show trade_pnls (c5_position.zip c5_pnl) = [some 3, some 1] by
    norm_num [trade_pnls, extract_trade_pnls_aux, opt_add, c5_position, c5_pnl]] at h1
  norm_num at h1

/-- Claim C5, amended: on position series [0,1,1,1,0,0,1,0] with per-bar
pnl [0,2,3,-1,1,0,-2,1] the code yields two resolved trades with pnls
3 = 3+(-1)+1 (entry-bar pnl excluded, exit-bar pnl included) and
1 (exit-bar pnl only), durations 3 and 1 (entry through last nonzero
bar; the exit bar is not counted), hence win_rate = 100% and
max_consecutive_losses = 0. -/
theorem c5_scenario_amended :
    trade_pnls (c5_position.zip c5_pnl) = [some 3, some 1] ∧
    trade_durations c5_position = [3, 1] ∧
    calculate_win_rate c5_df = .num 100 ∧
    calculate_max_consecutive_losses c5_df = 0 := by
  have hpnls : trade_pnls (c5_position.zip c5_pnl) = [some 3, some 1] := by
    norm_num [trade_pnls, extract_trade_pnls_aux, opt_add, c5_position, c5_pnl]
  refine ⟨hpnls, ?_, ?_, ?_⟩
  · norm_num [trade_durations, trade_durations_aux, c5_position]
  · norm_num [calculate_win_rate, c5_df, hpnls, posOpt, py_round,
      round_half_even, mean]
  · unfold calculate_max_consecutive_losses
    rw [show c5_df.position.zip (pnl_of c5_df) = c5_position.zip c5_pnl from rfl,
      hpnls]
    norm_num [negOpt]

/-- Claim C6: on any frame carrying a pnl column whose dropna'd series is
empty or has zero standard deviation (length at least two and zero sample
variance — a singleton series has NaN std, which is not equal to 0),
`calculate_all_metrics` returns the all-zero default record, for every
interpretation of the square root. -/
theorem c6_degenerate_short_circuit (sq : ℚ → ℚ) (df : DF) (pc : List (Option ℚ))
    (hcol : df.pnl = some pc)
    (hdeg : (pc.filterMap id).length = 0 ∨
      (2 ≤ (pc.filterMap id).length ∧ sample_var (pc.filterMap id) = 0)) :
    calculate_all_metrics sq df = get_empty_metrics := by
  unfold calculate_all_metrics
  simp only [pnl_of, hcol, Option.isNone_some, Bool.false_eq_true, if_false,
    Option.getD_some]
  rw [if_pos hdeg]

/-- Claim C6 witness: a one-bar backtest has pnl column [NaN], whose
dropna'd series is empty, so the metrics record is the default one. -/
theorem c6_degenerate_short_circuit_inst :
    calculate_all_metrics (fun x => x) (run_backtest (mkDF [0] [1] [0]))
      = get_empty_metrics :=
  c6_degenerate_short_circuit (fun x => x) (run_backtest (mkDF [0] [1] [0]))
    [none] (by decide) (Or.inl (by decide))

/-- Claim C7: the grid {window: [10,20], threshold: [1.0,2.0]} expands to
the full Cartesian product of 4 combinations; when every combination
evaluates, the optimizer returns 4 rows, each carrying its own parameters
with its own metrics, sorted descending by the chosen target metric; when
exactly one combination raises, it is skipped, the loop continues, and
exactly 3 such rows are returned. -/
theorem c7_grid_results :
    generate_param_combinations [10, 20] [1, 2]
      = [⟨10, 1⟩, ⟨10, 2⟩, ⟨20, 1⟩, ⟨20, 2⟩] ∧
    (∀ (key : Metrics → PyVal) (evalFn : Params → Option Metrics),
      (∀ p ∈ generate_param_combinations [10, 20] [1, 2], (evalFn p).isSome = true) →
      ∃ out, optimize_parameters key evalFn [10, 20] [1, 2] = .ok out ∧
        out.length = 4 ∧
        (∀ row ∈ out, row.1 ∈ generate_param_combinations [10, 20] [1, 2] ∧
          evalFn row.1 = some row.2) ∧
        List.Sorted (rowRel key) out) ∧
    (∀ (key : Metrics → PyVal) (evalFn : Params → Option Metrics) (p0 : Params),
      p0 ∈ generate_param_combinations [10, 20] [1, 2] → evalFn p0 = none →
      (∀ p ∈ generate_param_combinations [10, 20] [1, 2], p ≠ p0 →
        (evalFn p).isSome = true) →
      ∃ out, optimize_parameters key evalFn [10, 20] [1, 2] = .ok out ∧
        out.length = 3 ∧
        (∀ row ∈ out, row.1 ∈ generate_param_combinations [10, 20] [1, 2] ∧
          row.1 ≠ p0 ∧ evalFn row.1 = some row.2) ∧
        List.Sorted (rowRel key) out) := by
  have hcombos : generate_param_combinations [10, 20] [1, 2]
      = [⟨10, 1⟩, ⟨10, 2⟩, ⟨20, 1⟩, ⟨20, 2⟩] := by decide
  refine ⟨hcombos, ?_, ?_⟩
  · intro key evalFn h
    obtain ⟨m1, hm1⟩ := Option.isSome_iff_exists.mp (h ⟨10, 1⟩ (by decide))
    obtain ⟨m2, hm2⟩ := Option.isSome_iff_exists.mp (h ⟨10, 2⟩ (by decide))
    obtain ⟨m3, hm3⟩ := Option.isSome_iff_exists.mp (h ⟨20, 1⟩ (by decide))
    obtain ⟨m4, hm4⟩ := Option.isSome_iff_exists.mp (h ⟨20, 2⟩ (by decide))
    have hres : (generate_param_combinations [10, 20] [1, 2]).filterMap
        (fun p => (evalFn p).map (fun m => (p, m)))
        = [(⟨10, 1⟩, m1), (⟨10, 2⟩, m2), (⟨20, 1⟩, m3), (⟨20, 2⟩, m4)] := by
      rw [hcombos]
      simp [List.filterMap_cons, hm1, hm2, hm3, hm4]
    obtain ⟨out, hok, hperm, hsort⟩ :=
      optimize_ok_of_results key evalFn [10, 20] [1, 2] _ hres (by simp)
    refine ⟨out, hok, ?_, ?_, hsort⟩
    · rw [hperm.length_eq]; rfl
    · intro row hrow
      have hmem := hperm.subset hrow
      simp only [List.mem_cons, List.not_mem_nil, or_false] at hmem
      rcases hmem with h1 | h1 | h1 | h1 <;> subst h1
      · exact ⟨by simp [hcombos], hm1⟩
      · exact ⟨by simp [hcombos], hm2⟩
      · exact ⟨by simp [hcombos], hm3⟩
      · exact ⟨by simp [hcombos], hm4⟩
  · intro key evalFn p0 hp0 hfail h
    rw [hcombos] at hp0
    simp only [List.mem_cons, List.not_mem_nil, or_false] at hp0
    rcases hp0 with h0 | h0 | h0 | h0 <;> subst h0
    · obtain ⟨m2, hm2⟩ := Option.isSome_iff_exists.mp (h ⟨10, 2⟩ (by decide) (by decide))
      obtain ⟨m3, hm3⟩ := Option.isSome_iff_exists.mp (h ⟨20, 1⟩ (by decide) (by decide))
      obtain ⟨m4, hm4⟩ := Option.isSome_iff_exists.mp (h ⟨20, 2⟩ (by decide) (by decide))
      have hres : (generate_param_combinations [10, 20] [1, 2]).filterMap
          (fun p => (evalFn p).map (fun m => (p, m)))
          = [(⟨10, 2⟩, m2), (⟨20, 1⟩, m3), (⟨20, 2⟩, m4)] := by
        rw [hcombos]
        simp [List.filterMap_cons, hfail, hm2, hm3, hm4]
      obtain ⟨out, hok, hperm, hsort⟩ :=
        optimize_ok_of_results key evalFn [10, 20] [1, 2] _ hres (by simp)
      refine ⟨out, hok, ?_, ?_, hsort⟩
      · rw [hperm.length_eq]; rfl
      · intro row hrow
        have hmem := hperm.subset hrow
        simp only [List.mem_cons, List.not_mem_nil, or_false] at hmem
        rcases hmem with h1 | h1 | h1 <;> subst h1
        · exact ⟨by simp [hcombos], by norm_num [Params.mk.injEq], hm2⟩
        · exact ⟨by simp [hcombos], by norm_num [Params.mk.injEq], hm3⟩
        · exact ⟨by simp [hcombos], by norm_num [Params.mk.injEq], hm4⟩
    · obtain ⟨m1, hm1⟩ := Option.isSome_iff_exists.mp (h ⟨10, 1⟩ (by decide) (by decide))
      obtain ⟨m3, hm3⟩ := Option.isSome_iff_exists.mp (h ⟨20, 1⟩ (by decide) (by decide))
      obtain ⟨m4, hm4⟩ := Option.isSome_iff_exists.mp (h ⟨20, 2⟩ (by decide) (by decide))
      have hres : (generate_param_combinations [10, 20] [1, 2]).filterMap
          (fun p => (evalFn p).map (fun m => (p, m)))
          = [(⟨10, 1⟩, m1), (⟨20, 1⟩, m3), (⟨20, 2⟩, m4)] := by
        rw [hcombos]
        simp [List.filterMap_cons, hfail, hm1, hm3, hm4]
      obtain ⟨out, hok, hperm, hsort⟩ :=
        optimize_ok_of_results key evalFn [10, 20] [1, 2] _ hres (by simp)
      refine ⟨out, hok, ?_, ?_, hsort⟩
      · rw [hperm.length_eq]; rfl
      · intro row hrow
        have hmem := hperm.subset hrow
        simp only [List.mem_cons, List.not_mem_nil, or_false] at hmem
        rcases hmem with h1 | h1 | h1 <;> subst h1
        · exact ⟨by simp [hcombos], by norm_num [Params.mk.injEq], hm1⟩
        · exact ⟨by simp [hcombos], by norm_num [Params.mk.injEq], hm3⟩
        · exact ⟨by simp [hcombos], by norm_num [Params.mk.injEq], hm4⟩
    · obtain ⟨m1, hm1⟩ := Option.isSome_iff_exists.mp (h ⟨10, 1⟩ (by decide) (by decide))
      obtain ⟨m2, hm2⟩ := Option.isSome_iff_exists.mp (h ⟨10, 2⟩ (by decide) (by decide))
      obtain ⟨m4, hm4⟩ := Option.isSome_iff_exists.mp (h ⟨20, 2⟩ (by decide) (by decide))
      have hres : (generate_param_combinations [10, 20] [1, 2]).filterMap
          (fun p => (evalFn p).map (fun m => (p, m)))
          = [(⟨10, 1⟩, m1), (⟨10, 2⟩, m2), (⟨20, 2⟩, m4)] := by
        rw [hcombos]
        simp [List.filterMap_cons, hfail, hm1, hm2, hm4]
      obtain ⟨out, hok, hperm, hsort⟩ :=
        optimize_ok_of_results key evalFn [10, 20] [1, 2] _ hres (by simp)
      refine ⟨out, hok, ?_, ?_, hsort⟩
      · rw [hperm.length_eq]; rfl
      · intro row hrow
        have hmem := hperm.subset hrow
        simp only [List.mem_cons, List.not_mem_nil, or_false] at hmem
        rcases hmem with h1 | h1 | h1 <;> subst h1
        · exact ⟨by simp [hcombos], by norm_num [Params.mk.injEq], hm1⟩
        · exact ⟨by simp [hcombos], by norm_num [Params.mk.injEq], hm2⟩
        · exact ⟨by simp [hcombos], by norm_num [Params.mk.injEq], hm4⟩
    · obtain ⟨m1, hm1⟩ := Option.isSome_iff_exists.mp (h ⟨10, 1⟩ (by decide) (by decide))
      obtain ⟨m2, hm2⟩ := Option.isSome_iff_exists.mp (h ⟨10, 2⟩ (by decide) (by decide))
      obtain ⟨m3, hm3⟩ := Option.isSome_iff_exists.mp (h ⟨20, 1⟩ (by decide) (by decide))
      have hres : (generate_param_combinations [10, 20] [1, 2]).filterMap
          (fun p => (evalFn p).map (fun m => (p, m)))
          = [(⟨10, 1⟩, m1), (⟨10, 2⟩, m2), (⟨20, 1⟩, m3)] := by
        rw [hcombos]
        simp [List.filterMap_cons, hfail, hm1, hm2, hm3]
      obtain ⟨out, hok, hperm, hsort⟩ :=
        optimize_ok_of_results key evalFn [10, 20] [1, 2] _ hres (by simp)
      refine ⟨out, hok, ?_, ?_, hsort⟩
      · rw [hperm.length_eq]; rfl
      · intro row hrow
        have hmem := hperm.subset hrow
        simp only [List.mem_cons, List.not_mem_nil, or_false] at hmem
        rcases hmem with h1 | h1 | h1 <;> subst h1
        · exact ⟨by simp [hcombos], by norm_num [Params.mk.injEq], hm1⟩
        · exact ⟨by simp [hcombos], by norm_num [Params.mk.injEq], hm2⟩
        · exact ⟨by simp [hcombos], by norm_num [Params.mk.injEq], hm3⟩

/-- Claim C7 witness: with an evaluation that always succeeds, the
optimizer on the 2x2 grid returns 4 rows. -/
theorem c7_grid_results_inst :
    ∃ out, optimize_parameters Metrics.sharpe (fun _ => some get_empty_metrics)
      [10, 20] [1, 2] = .ok out ∧ out.length = 4 := by
  obtain ⟨out, hok, hlen, _, _⟩ :=
    c7_grid_results.2.1 Metrics.sharpe (fun _ => some get_empty_metrics)
      (fun _ _ => rfl)
  exact ⟨out, hok, hlen⟩

/-- Claim C8: `run_backtest` copies its input before adding any column:
in the heap model, after the call the caller's reference still holds the
original frame unchanged, the returned object lives at the fresh
reference and equals the pure `run_backtest` of the input, and the three
base columns of the output equal those of the input. -/
theorem c8_no_mutation (σ : ℕ → DF) (dfRef freshRef : ℕ) (h : freshRef ≠ dfRef) :
    (runBacktestHeap σ dfRef freshRef).1 dfRef = σ dfRef ∧
    (runBacktestHeap σ dfRef freshRef).1 (runBacktestHeap σ dfRef freshRef).2
      = run_backtest (σ dfRef) ∧
    (run_backtest (σ dfRef)).close = (σ dfRef).close ∧
    (run_backtest (σ dfRef)).position = (σ dfRef).position ∧
    (run_backtest (σ dfRef)).timestamp = (σ dfRef).timestamp := by
  refine ⟨?_, ?_, rfl, rfl, rfl⟩
  · show Function.update (Function.update σ freshRef (σ dfRef)) freshRef
        (run_backtest (Function.update σ freshRef (σ dfRef) freshRef)) dfRef
      = σ dfRef
    rw [Function.update_noteq (Ne.symm h), Function.update_noteq (Ne.symm h)]
  · show Function.update (Function.update σ freshRef (σ dfRef)) freshRef
        (run_backtest (Function.update σ freshRef (σ dfRef) freshRef)) freshRef
      = run_backtest (σ dfRef)
    rw [Function.update_same, Function.update_same]

/-- Claim C8 witness: with the input frame stored at reference 0 and the
copy allocated at reference 1, reference 0 is unchanged by the call. -/
theorem c8_no_mutation_inst :
    (runBacktestHeap (fun _ => z2_df) 0 1).1 0 = z2_df :=
  (c8_no_mutation (fun _ => z2_df) 0 1 (by decide)).1

/-- Claim C9: when every grid combination fails, the results list is
empty, the empty results frame has no metric column, and `sort_values`
raises — `optimize_parameters` aborts instead of returning an empty
table. -/
theorem c9_all_fail_aborts (key : Metrics → PyVal) (evalFn : Params → Option Metrics)
    (windows thresholds : List ℚ)
    (h : ∀ p ∈ generate_param_combinations windows thresholds, evalFn p = none) :
    optimize_parameters key evalFn windows thresholds = .error () := by
  have hnil : (generate_param_combinations windows thresholds).filterMap
      (fun p => (evalFn p).map (fun m => (p, m))) = [] := by
    rw [List.filterMap_eq_nil_iff]
    intro p hp
    rw [h p hp]
    rfl
  simp [optimize_parameters, hnil]

/-- Claim C9 witness: an evaluation that always raises makes the whole
optimization abort. -/
theorem c9_all_fail_aborts_inst :
    optimize_parameters Metrics.sharpe (fun _ => none) [10, 20] [1, 2]
      = .error () :=
  c9_all_fail_aborts Metrics.sharpe (fun _ => none) [10, 20] [1, 2]
    (fun _ _ => rfl)

/-- Claim C10: on every bar series whose first bar holds a nonzero
position, `calculate_total_trades` treats the undefined first difference
as 0 and counts exactly the indices t ≥ 1 with
position[t] ≠ position[t-1]; the initial entry at t = 0 is never
counted. -/
theorem c10_total_trades_diff (df : DF) (p0 : ℚ) (rest : List ℚ)
    (hpos : df.position = p0 :: rest) (hp0 : p0 ≠ 0) :
    calculate_total_trades df = change_count df.position :=
  total_trades_eq_change_count df

/-- Claim C10 witness: positions [2,2,0,1] start nonzero and contain two
later changes, so total_trades = 2, not 3. -/
theorem c10_total_trades_diff_inst :
    calculate_total_trades w10_df = change_count w10_df.position ∧
    change_count w10_df.position = 2 :=
  ⟨c10_total_trades_diff w10_df 2 [2, 0, 1] (by decide) (by decide), by decide⟩

end Cta
